import Mathlib

/-!
Verification of the snnTorch tutorial-2 fully-connected spiking network.

The repository's own code is the notebook `examples/tutorial_2_FCN.ipynb`,
which builds a two-layer time-unrolled network out of the snnTorch
primitives `snn.Stein`, `snn.FastSigmoidSurrogate` and `spikegen.rate`.
The notebook's network definition and unroll loop are embedded from the
source; the snnTorch primitives themselves are not part of the sources and
are modelled from the specification's description of them.

Numbers are modelled as rationals.  Tensors are modelled as lists of lists
of rationals (batch rows of feature entries) so that shape facts are
provable properties rather than typing artefacts.
-/

namespace Snn

/-- Modelled from the spec: `SurrogateSpike.forward` — the missing
`snn.FastSigmoidSurrogate` forward pass.  Returns `1` where `x ≥ 0` else
`0` (hard Heaviside threshold, inclusive boundary at `0`). -/
def SurrogateSpike.forward (x : ℚ) : ℚ :=
  if 0 ≤ x then 1 else 0

/-- Modelled from the spec: `SurrogateSpike.backward` — the missing
`snn.FastSigmoidSurrogate` backward pass.  Returns the fast-sigmoid
surrogate derivative `slope / (1 + slope·|x|)^2` multiplied by the
upstream gradient `g`. -/
def SurrogateSpike.backward (slope x g : ℚ) : ℚ :=
  slope / (1 + slope * |x|) ^ 2 * g

/-- Parameters of a Stein (synaptic LIF) neuron layer, fixed at
construction: synaptic decay `alpha`, membrane decay `beta`, spiking
`threshold`, surrogate `slope`. -/
structure SteinParams where
  alpha : ℚ
  beta : ℚ
  threshold : ℚ
  slope : ℚ
  deriving DecidableEq, Repr

/-- Per-element recurrent state of a Stein neuron: last spike `spk`,
synaptic current `syn`, membrane potential `mem`. -/
structure SteinState where
  spk : ℚ
  syn : ℚ
  mem : ℚ
  deriving DecidableEq, Repr

/-- Modelled from the spec: the per-element one-step transition of the
missing `snn.Stein` neuron:
`syn' = alpha * syn + input_current`,
`mem' = beta * mem + syn' - spk * threshold` (subtractive reset using the
previous step's spike), `spk' = SurrogateSpike.forward (mem' - threshold)`. -/
def steinStep (p : SteinParams) (I : ℚ) (s : SteinState) : SteinState :=
  let syn' := p.alpha * s.syn + I
  let mem' := p.beta * s.mem + syn' - s.spk * p.threshold
  let spk' := SurrogateSpike.forward (mem' - p.threshold)
  ⟨spk', syn', mem'⟩

/-- The zero state `spk = syn = mem = 0` used to seed a forward pass. -/
def SteinState.zero : SteinState := ⟨0, 0, 0⟩

/-- One neuron element driven by the input-current sequence `I`,
starting from the zero state and threading the returned state into the
next call, as in the notebook's unroll loop. -/
def steinRun (p : SteinParams) (I : ℕ → ℚ) : ℕ → SteinState
  | 0 => SteinState.zero
  | n + 1 => steinStep p (I n) (steinRun p I n)

/-- The error taxonomy of the spec that the embedded operations can
raise: invalid construction parameters, state/input shape mismatch. -/
inductive SnnError where
  | ConfigError
  | ShapeError
  deriving DecidableEq, Repr

/-- Modelled from the spec: construction of the missing `snn.Stein`
layer.  Fails with `ConfigError` if `alpha`/`beta` lie outside the open
interval `(0,1)` or `threshold ≤ 0`; otherwise returns the layer
parameters unchanged (no clamping). -/
def mkStein (alpha beta threshold slope : ℚ) : Except SnnError SteinParams :=
  if 0 < alpha ∧ alpha < 1 ∧ 0 < beta ∧ beta < 1 ∧ 0 < threshold then
    .ok ⟨alpha, beta, threshold, slope⟩
  else
    .error .ConfigError

/-- A batch-by-width tensor: a list of batch rows, each a list of
per-feature rationals. -/
abbrev Tensor := List (List ℚ)

/-- The shape of a tensor: the list of its row lengths (this determines
both the batch dimension and every row's width). -/
def tshape (t : Tensor) : List ℕ := t.map List.length

/-- Elementwise combination of two equally shaped tensors. -/
def map2 (f : ℚ → ℚ → ℚ) (a b : Tensor) : Tensor :=
  List.zipWith (List.zipWith f) a b

/-- Elementwise map over a tensor. -/
def tmap (f : ℚ → ℚ) (a : Tensor) : Tensor :=
  a.map (List.map f)

/-- The all-zero tensor with `r` rows of `c` entries. -/
def zeros (r c : ℕ) : Tensor := List.replicate r (List.replicate c 0)

/-- Recurrent state of one Stein layer over a whole batch: three
equally shaped tensors. -/
structure SteinTState where
  spk : Tensor
  syn : Tensor
  mem : Tensor
  deriving DecidableEq, Repr

/-- `lif.init_stein(batch_size, width)` of the notebook: the zero state
of shape `(batchSize, width)` seeding a forward pass. -/
def initStein (batchSize width : ℕ) : SteinTState :=
  ⟨zeros batchSize width, zeros batchSize width, zeros batchSize width⟩

/-- Modelled from the spec: one step of the missing `snn.Stein` layer on
a batch.  Fails with `ShapeError` when the shape of `input_current`
differs from the stored state shape (no silent broadcast); otherwise
applies the per-element transition `steinStep` at every position. -/
def steinStepT (p : SteinParams) (I : Tensor) (s : SteinTState) :
    Except SnnError SteinTState :=
  if tshape I = tshape s.syn ∧ tshape I = tshape s.mem ∧ tshape I = tshape s.spk then
    let syn' := map2 (fun sy i => p.alpha * sy + i) s.syn I
    let mem' := map2 (fun x sp => x - sp * p.threshold)
      (map2 (fun m sy2 => p.beta * m + sy2) s.mem syn') s.spk
    let spk' := tmap (fun m => SurrogateSpike.forward (m - p.threshold)) mem'
    .ok ⟨spk', syn', mem'⟩
  else
    .error .ShapeError

/-- Dot product of two equally long rows. -/
def dot (a b : List ℚ) : ℚ := (List.zipWith (· * ·) a b).sum

/-- An affine layer `nn.Linear` applied to one input row: one output
entry `dot w x + bi` per (weight row, bias entry) pair. -/
def linearRow (W : Tensor) (b : List ℚ) (x : List ℚ) : List ℚ :=
  List.zipWith (fun w bi => dot w x + bi) W b

/-- An affine layer applied to every row of a batch. -/
def linearT (W : Tensor) (b : List ℚ) (X : Tensor) : Tensor :=
  X.map (linearRow W b)

/-- The body of the notebook `Net.forward` unroll loop: at each of the
remaining `n` steps, feed `fc1(x)` to the first Stein layer, feed
`fc2` of its spikes to the second, record the second layer's spike and
membrane tensors, and thread both returned states into the next
iteration. -/
def netLoop (p1 p2 : SteinParams) (W1 : Tensor) (b1 : List ℚ)
    (W2 : Tensor) (b2 : List ℚ) (x : Tensor) :
    ℕ → SteinTState → SteinTState → Except SnnError (List Tensor × List Tensor)
  | 0, _, _ => .ok ([], [])
  | n + 1, s1, s2 => do
    let s1' ← steinStepT p1 (linearT W1 b1 x) s1
    let s2' ← steinStepT p2 (linearT W2 b2 s1'.spk) s2
    let (spks, mems) ← netLoop p1 p2 W1 b1 W2 b2 x n s1' s2'
    .ok (s2'.spk :: spks, s2'.mem :: mems)

/-- The notebook `Net.forward`: initialise both layer states with the
globally configured `batchSize` (not the batch dimension of `x`), run
the unroll loop for `numSteps` steps, and return the stacked spike and
membrane histories of the second layer. -/
def netForward (p1 p2 : SteinParams) (W1 : Tensor) (b1 : List ℚ)
    (W2 : Tensor) (b2 : List ℚ) (batchSize numSteps : ℕ) (x : Tensor) :
    Except SnnError (List Tensor × List Tensor) :=
  netLoop p1 p2 W1 b1 W2 b2 x numSteps
    (initStein batchSize W1.length) (initStein batchSize W2.length)

/-- Clip a rational to the closed interval `[0,1]`. -/
def clip01 (x : ℚ) : ℚ := max 0 (min 1 x)

/-- A Bernoulli draw with firing probability `p` from a uniform random
value `u ∈ [0,1)`: spike iff `u < p`. -/
def bernoulli (p u : ℚ) : ℚ := if u < p then 1 else 0

/-- Modelled from the spec: the missing `spikegen.rate` encoder.  Turns
one static sample into `numSteps` independent Bernoulli draws per
element with probability `clip01 (gain * x + offset)`, using the random
source `u` (one uniform value in `[0,1)` per step, row and column),
producing a spike train of shape `(numSteps, *sample.shape)`. -/
def rateEncode (numSteps : ℕ) (gain offset : ℚ) (sample : Tensor)
    (u : ℕ → ℕ → ℕ → ℚ) : List Tensor :=
  (List.range numSteps).map fun t =>
    sample.enum.map fun ir =>
      ir.2.enum.map fun jx =>
        bernoulli (clip01 (gain * jx.2 + offset)) (u t ir.1 jx.1)

end Snn

namespace Snn

/-! ### Helper lemmas -/

lemma tshape_map2 (f : ℚ → ℚ → ℚ) :
    ∀ {a b : Tensor}, tshape a = tshape b → tshape (map2 f a b) = tshape a := by
  intro a
  induction a with
  | nil => intro b _; rfl
  | cons r a ih =>
    intro b hb
    cases b with
    | nil => simp [tshape] at hb
    | cons r2 b =>
      simp only [tshape, List.map_cons, List.cons.injEq] at hb
      simp only [map2, tshape, List.zipWith_cons_cons, List.map_cons,
        List.length_zipWith, hb.1, min_self, List.cons.injEq, true_and]
      exact ih hb.2

lemma tshape_tmap (f : ℚ → ℚ) (a : Tensor) : tshape (tmap f a) = tshape a := by
  simp [tshape, tmap, List.map_map, Function.comp_def]

lemma tshape_zeros (r c : ℕ) : tshape (zeros r c) = List.replicate r c := by
  simp [tshape, zeros, List.map_replicate]

lemma length_eq_of_tshape (t : Tensor) : t.length = (tshape t).length := by
  simp [tshape]

lemma tshape_linearT (W : Tensor) (b : List ℚ) (X : Tensor)
    (hb : b.length = W.length) :
    tshape (linearT W b X) = List.replicate X.length W.length := by
  induction X with
  | nil => rfl
  | cons r X ih =>
    show List.map List.length (linearRow W b r :: List.map (linearRow W b) X) = _
    rw [List.map_cons, List.length_cons, List.replicate_succ]
    refine congrArg₂ List.cons ?_ ih
    simp [linearRow, List.length_zipWith, hb]

/-- When the input-current shape matches the state shape, a Stein batch
step succeeds and the returned state keeps that shape. -/
lemma steinStepT_ok (p : SteinParams) (I : Tensor) (s : SteinTState)
    (h1 : tshape I = tshape s.syn) (h2 : tshape I = tshape s.mem)
    (h3 : tshape I = tshape s.spk) :
    ∃ s', steinStepT p I s = .ok s' ∧ tshape s'.syn = tshape I ∧
      tshape s'.mem = tshape I ∧ tshape s'.spk = tshape I := by
  have hsyn : tshape (map2 (fun sy i => p.alpha * sy + i) s.syn I) = tshape I := by
    rw [tshape_map2 _ h1.symm, ← h1]
  have hpre : tshape (map2 (fun m sy2 => p.beta * m + sy2) s.mem
      (map2 (fun sy i => p.alpha * sy + i) s.syn I)) = tshape I := by
    rw [tshape_map2 _ (by rw [hsyn, h2]), ← h2]
  have hmem : tshape (map2 (fun x sp => x - sp * p.threshold)
      (map2 (fun m sy2 => p.beta * m + sy2) s.mem
        (map2 (fun sy i => p.alpha * sy + i) s.syn I)) s.spk) = tshape I := by
    rw [tshape_map2 _ (by rw [hpre, h3]), hpre]
  refine ⟨_, by rw [steinStepT, if_pos ⟨h1, h2, h3⟩], hsyn, hmem, ?_⟩
  rw [tshape_tmap]
  exact hmem

lemma steinStepT_err (p : SteinParams) (I : Tensor) (s : SteinTState)
    (h : tshape I ≠ tshape s.syn) :
    steinStepT p I s = .error .ShapeError := by
  rw [steinStepT, if_neg]
  exact fun hh => h hh.1

lemma snd_mem_of_mem_enum {α : Type} {l : List α} {q : ℕ × α}
    (h : q ∈ l.enum) : q.2 ∈ l := by
  have h2 := List.mem_map_of_mem Prod.snd h
  rwa [List.enum_map_snd] at h2

lemma enum_map_snd_comp {α β : Type} (l : List α) (f : α → β) :
    l.enum.map (fun q => f q.2) = l.map f := by
  rw [show (fun q : ℕ × α => f q.2) = f ∘ Prod.snd from rfl, ← List.map_map,
    List.enum_map_snd]

lemma steinRun_syn_succ (p : SteinParams) (c : ℚ) (n : ℕ) :
    (steinRun p (fun _ => c) (n + 1)).syn =
      p.alpha * (steinRun p (fun _ => c) n).syn + c := rfl

lemma steinRun_mem_succ (p : SteinParams) (c : ℚ) (n : ℕ) :
    (steinRun p (fun _ => c) (n + 1)).mem =
      p.beta * (steinRun p (fun _ => c) n).mem +
        (steinRun p (fun _ => c) (n + 1)).syn -
        (steinRun p (fun _ => c) n).spk * p.threshold := rfl

/-- Under constant input `c > 0` the synaptic current stays nonnegative
and below its fixed point `c / (1 - alpha)`. -/
lemma syn_nonneg_bound (p : SteinParams) (c : ℚ) (hc : 0 < c)
    (hα0 : 0 < p.alpha) (hα1 : p.alpha < 1) (n : ℕ) :
    0 ≤ (steinRun p (fun _ => c) n).syn ∧
      (1 - p.alpha) * (steinRun p (fun _ => c) n).syn ≤ c := by
  induction n with
  | zero =>
    constructor <;> simp [steinRun, SteinState.zero] <;> linarith
  | succ n ih =>
    obtain ⟨h0, hbd⟩ := ih
    rw [steinRun_syn_succ]
    constructor
    · nlinarith
    · nlinarith

/-- Under constant input `c > 0` the synaptic current is non-decreasing. -/
lemma syn_mono (p : SteinParams) (c : ℚ) (hc : 0 < c)
    (hα0 : 0 < p.alpha) (hα1 : p.alpha < 1) (n : ℕ) :
    (steinRun p (fun _ => c) n).syn ≤ (steinRun p (fun _ => c) (n + 1)).syn := by
  obtain ⟨h0, hbd⟩ := syn_nonneg_bound p c hc hα0 hα1 n
  rw [steinRun_syn_succ]
  nlinarith

/-- As long as no spike has been emitted, the membrane potential stays
nonnegative and below `syn / (1 - beta)`. -/
lemma mem_nonneg_bound (p : SteinParams) (c : ℚ) (hc : 0 < c)
    (hα0 : 0 < p.alpha) (hα1 : p.alpha < 1)
    (hβ0 : 0 < p.beta) (hβ1 : p.beta < 1) (n : ℕ)
    (h : ∀ k < n, (steinRun p (fun _ => c) k).spk = 0) :
    0 ≤ (steinRun p (fun _ => c) n).mem ∧
      (1 - p.beta) * (steinRun p (fun _ => c) n).mem ≤
        (steinRun p (fun _ => c) n).syn := by
  induction n with
  | zero => constructor <;> simp [steinRun, SteinState.zero]
  | succ n ih =>
    have hspk : (steinRun p (fun _ => c) n).spk = 0 := h n (Nat.lt_succ_self n)
    obtain ⟨h0, hbd⟩ := ih fun k hk => h k (hk.trans (Nat.lt_succ_self n))
    obtain ⟨hsyn0, hsynbd⟩ := syn_nonneg_bound p c hc hα0 hα1 n
    have hmono := syn_mono p c hc hα0 hα1 n
    rw [steinRun_mem_succ, hspk, zero_mul, sub_zero, steinRun_syn_succ]
    constructor
    · nlinarith
    · nlinarith

end Snn

namespace Snn

/-! ### Claim theorems -/

/-- C1: one Stein step returns exactly `syn' = alpha*syn + I`,
`mem' = beta*mem + syn' - spk*threshold` (subtractive reset from the
previous step's spike) and `spk' = SurrogateSpike.forward (mem' - threshold)`,
and the unroll loop threads the returned triple into the next call. -/
theorem stein_step_equations (p : SteinParams) (I : ℚ) (s : SteinState) :
    (steinStep p I s).syn = p.alpha * s.syn + I ∧
    (steinStep p I s).mem =
      p.beta * s.mem + (steinStep p I s).syn - s.spk * p.threshold ∧
    (steinStep p I s).spk =
      SurrogateSpike.forward ((steinStep p I s).mem - p.threshold) ∧
    (∀ (Iseq : ℕ → ℚ) (n : ℕ),
      steinRun p Iseq (n + 1) = steinStep p (Iseq n) (steinRun p Iseq n)) :=
  ⟨rfl, rfl, rfl, fun _ _ => rfl⟩

/-- C2: the surrogate forward pass is the Heaviside step with inclusive
boundary: `1` for `x ≥ 0` (in particular at `x = 0`), `0` for `x < 0`. -/
theorem surrogate_forward_heaviside (x : ℚ) :
    (0 ≤ x → SurrogateSpike.forward x = 1) ∧
    (x < 0 → SurrogateSpike.forward x = 0) ∧
    SurrogateSpike.forward 0 = 1 :=
  ⟨fun h => if_pos h, fun h => if_neg (not_le.mpr h), if_pos le_rfl⟩

/-- C2 witness at `x = 2` and `x = -1`. -/
theorem surrogate_forward_heaviside_witness :
    SurrogateSpike.forward 2 = 1 ∧ SurrogateSpike.forward (-1) = 0 :=
  ⟨(surrogate_forward_heaviside 2).1 (by norm_num),
   (surrogate_forward_heaviside (-1)).2.1 (by norm_num)⟩

/-- C3: the surrogate backward pass returns
`slope / (1 + slope*|x|)^2 * g`; for `g = 1` it is strictly positive,
strictly decreasing in `|x|`, and equals `slope` at `x = 0`. -/
theorem surrogate_backward_fast_sigmoid (slope x g : ℚ) (hs : 0 < slope) :
    SurrogateSpike.backward slope x g = slope / (1 + slope * |x|) ^ 2 * g ∧
    0 < SurrogateSpike.backward slope x 1 ∧
    (∀ y : ℚ, |x| < |y| →
      SurrogateSpike.backward slope y 1 < SurrogateSpike.backward slope x 1) ∧
    SurrogateSpike.backward slope 0 1 = slope := by
  have hbase : ∀ z : ℚ, (0:ℚ) < 1 + slope * |z| := fun z => by
    have : (0:ℚ) ≤ slope * |z| := mul_nonneg hs.le (abs_nonneg z)
    linarith
  refine ⟨rfl, ?_, ?_, ?_⟩
  · rw [SurrogateSpike.backward, mul_one]
    exact div_pos hs (pow_pos (hbase x) 2)
  · intro y hy
    rw [SurrogateSpike.backward, SurrogateSpike.backward, mul_one, mul_one]
    have hlt : 1 + slope * |x| < 1 + slope * |y| := by
      have := mul_lt_mul_of_pos_left hy hs
      linarith
    exact div_lt_div_of_pos_left hs (pow_pos (hbase x) 2)
      (pow_lt_pow_left hlt (hbase x).le two_ne_zero)
  · simp [SurrogateSpike.backward]

/-- C3 witness at `slope = 50`, comparing `x = 0` against `y = 1`. -/
theorem surrogate_backward_fast_sigmoid_witness :
    SurrogateSpike.backward 50 1 1 < SurrogateSpike.backward 50 0 1 ∧
    SurrogateSpike.backward 50 0 1 = 50 :=
  ⟨(surrogate_backward_fast_sigmoid 50 0 1 (by norm_num)).2.2.1 1 (by norm_num),
   (surrogate_backward_fast_sigmoid 50 0 1 (by norm_num)).2.2.2⟩

/-- C5: with zero input current from the zero state, the state stays
exactly zero at every step — no spike, `syn = mem = 0` — provided the
threshold is positive. -/
theorem zero_input_fixed_point (p : SteinParams) (hθ : 0 < p.threshold)
    (n : ℕ) : steinRun p (fun _ => 0) n = SteinState.zero := by
  induction n with
  | zero => rfl
  | succ n ih =>
    simp [steinRun, ih, steinStep, SteinState.zero, SurrogateSpike.forward]
    exact hθ

/-- C5 witness: ten zero-input steps with the tutorial-like parameters. -/
theorem zero_input_fixed_point_witness :
    steinRun ⟨1/2, 1/2, 1, 50⟩ (fun _ => 0) 10 = SteinState.zero :=
  zero_input_fixed_point ⟨1/2, 1/2, 1, 50⟩ (by norm_num) 10

/-- C6: under constant input `c > 0` from the zero state with
`alpha, beta ∈ (0,1)`, the membrane potential is non-decreasing at
every step up to and including the first spike, and at the step after a
spike it equals the no-reset value `beta*mem + syn'` minus `threshold`. -/
theorem constant_input_mem_behaviour (p : SteinParams) (c : ℚ)
    (hc : 0 < c) (hα0 : 0 < p.alpha) (hα1 : p.alpha < 1)
    (hβ0 : 0 < p.beta) (hβ1 : p.beta < 1) :
    (∀ t : ℕ, (∀ k ≤ t, (steinRun p (fun _ => c) k).spk = 0) →
      (steinRun p (fun _ => c) t).mem ≤ (steinRun p (fun _ => c) (t + 1)).mem) ∧
    (∀ t : ℕ, (steinRun p (fun _ => c) t).spk = 1 →
      (steinRun p (fun _ => c) (t + 1)).mem =
        (p.beta * (steinRun p (fun _ => c) t).mem +
          (steinRun p (fun _ => c) (t + 1)).syn) - p.threshold) := by
  constructor
  · intro t h
    have hspk : (steinRun p (fun _ => c) t).spk = 0 := h t le_rfl
    obtain ⟨h0, hbd⟩ :=
      mem_nonneg_bound p c hc hα0 hα1 hβ0 hβ1 t fun k hk => h k hk.le
    obtain ⟨hsyn0, hsynbd⟩ := syn_nonneg_bound p c hc hα0 hα1 t
    have hmono := syn_mono p c hc hα0 hα1 t
    rw [steinRun_mem_succ, hspk, zero_mul, sub_zero]
    nlinarith
  · intro t h1
    rw [steinRun_mem_succ, h1, one_mul]

/-- C6 witness: first step from the zero state with `c = 1`,
`alpha = beta = 1/2`, `threshold = 1`. -/
theorem constant_input_mem_behaviour_witness :
    (steinRun ⟨1/2, 1/2, 1, 50⟩ (fun _ => 1) 0).mem ≤
      (steinRun ⟨1/2, 1/2, 1, 50⟩ (fun _ => 1) 1).mem :=
  (constant_input_mem_behaviour ⟨1/2, 1/2, 1, 50⟩ 1 (by norm_num) (by norm_num)
    (by norm_num) (by norm_num) (by norm_num)).1 0
    (fun k hk => by
      have hk0 := Nat.le_zero.mp hk
      subst hk0
      rfl)

/-- C7: `snn.Stein` construction succeeds for `alpha, beta ∈ (0,1)` and
`threshold > 0`, returning the parameters unclamped, and fails with
`ConfigError` whenever `alpha` or `beta` falls outside `(0,1)` or
`threshold ≤ 0`. -/
theorem mkStein_config_check (alpha beta threshold slope : ℚ) :
    ((0 < alpha ∧ alpha < 1 ∧ 0 < beta ∧ beta < 1 ∧ 0 < threshold) →
      mkStein alpha beta threshold slope = .ok ⟨alpha, beta, threshold, slope⟩) ∧
    ((¬ (0 < alpha ∧ alpha < 1) ∨ ¬ (0 < beta ∧ beta < 1) ∨ threshold ≤ 0) →
      mkStein alpha beta threshold slope = .error .ConfigError) := by
  constructor
  · intro h
    rw [mkStein, if_pos h]
  · intro h
    rw [mkStein, if_neg]
    intro hh
    rcases h with h | h | h
    · exact h ⟨hh.1, hh.2.1⟩
    · exact h ⟨hh.2.2.1, hh.2.2.2.1⟩
    · exact absurd hh.2.2.2.2 (not_lt.mpr h)

/-- C7 witness: a valid construction, an `alpha = 1` rejection and a
`threshold = 0` rejection. -/
theorem mkStein_config_check_witness :
    mkStein (1/2) (1/2) 1 50 = .ok ⟨1/2, 1/2, 1, 50⟩ ∧
    mkStein 1 (1/2) 1 50 = .error .ConfigError ∧
    mkStein (1/2) (1/2) 0 50 = .error .ConfigError :=
  ⟨(mkStein_config_check (1/2) (1/2) 1 50).1 (by norm_num),
   (mkStein_config_check 1 (1/2) 1 50).2 (Or.inl (by norm_num)),
   (mkStein_config_check (1/2) (1/2) 0 50).2 (Or.inr (Or.inr (by norm_num)))⟩

/-- C8: a Stein batch step fails with `ShapeError` exactly when the
input-current shape differs from the stored state shape; on matching
shapes it succeeds and preserves the shape (no silent broadcast). -/
theorem stein_step_shape_contract (p : SteinParams) (I : Tensor)
    (s : SteinTState) (hm : tshape s.mem = tshape s.syn)
    (hk : tshape s.spk = tshape s.syn) :
    (tshape I ≠ tshape s.syn → steinStepT p I s = .error .ShapeError) ∧
    (tshape I = tshape s.syn →
      ∃ s', steinStepT p I s = .ok s' ∧ tshape s'.syn = tshape I ∧
        tshape s'.mem = tshape I ∧ tshape s'.spk = tshape I) :=
  ⟨steinStepT_err p I s,
   fun h => steinStepT_ok p I s h (h.trans hm.symm) (h.trans hk.symm)⟩

/-- C8 witness: a batch-1 input against a batch-2 state is rejected. -/
theorem stein_step_shape_contract_witness :
    steinStepT ⟨1/2, 1/2, 1, 50⟩ [[1]] (initStein 2 1) = .error .ShapeError :=
  (stein_step_shape_contract ⟨1/2, 1/2, 1, 50⟩ [[1]] (initStein 2 1)
    rfl rfl).1 (by decide)

/-- When both layer states have the batch shape of `x`, the unroll loop
succeeds and records one final-layer spike and membrane tensor per step,
each of shape `(x.length, W2.length)`. -/
lemma netLoop_shapes (p1 p2 : SteinParams) (W1 : Tensor) (b1 : List ℚ)
    (W2 : Tensor) (b2 : List ℚ) (x : Tensor)
    (hb1 : b1.length = W1.length) (hb2 : b2.length = W2.length) :
    ∀ (n : ℕ) (s1 s2 : SteinTState),
      tshape s1.syn = List.replicate x.length W1.length →
      tshape s1.mem = List.replicate x.length W1.length →
      tshape s1.spk = List.replicate x.length W1.length →
      tshape s2.syn = List.replicate x.length W2.length →
      tshape s2.mem = List.replicate x.length W2.length →
      tshape s2.spk = List.replicate x.length W2.length →
      ∃ spks mems, netLoop p1 p2 W1 b1 W2 b2 x n s1 s2 = .ok (spks, mems) ∧
        spks.length = n ∧ mems.length = n ∧
        (∀ t ∈ spks, tshape t = List.replicate x.length W2.length) ∧
        (∀ t ∈ mems, tshape t = List.replicate x.length W2.length) := by
  intro n
  induction n with
  | zero =>
    intro s1 s2 _ _ _ _ _ _
    exact ⟨[], [], rfl, rfl, rfl, by simp, by simp⟩
  | succ n ih =>
    intro s1 s2 hs1 hm1 hp1 hs2 hm2 hp2
    have hI1 : tshape (linearT W1 b1 x) = List.replicate x.length W1.length :=
      tshape_linearT W1 b1 x hb1
    obtain ⟨s1', hstep1, hsyn1, hmem1, hspk1⟩ :=
      steinStepT_ok p1 (linearT W1 b1 x) s1 (hI1.trans hs1.symm)
        (hI1.trans hm1.symm) (hI1.trans hp1.symm)
    have hlen : s1'.spk.length = x.length := by
      rw [length_eq_of_tshape, hspk1.trans hI1, List.length_replicate]
    have hI2 : tshape (linearT W2 b2 s1'.spk) =
        List.replicate x.length W2.length := by
      rw [tshape_linearT W2 b2 _ hb2, hlen]
    obtain ⟨s2', hstep2, hsyn2, hmem2, hspk2⟩ :=
      steinStepT_ok p2 (linearT W2 b2 s1'.spk) s2 (hI2.trans hs2.symm)
        (hI2.trans hm2.symm) (hI2.trans hp2.symm)
    obtain ⟨spks, mems, hrec, hls, hlm, hfs, hfm⟩ :=
      ih s1' s2' (hsyn1.trans hI1) (hmem1.trans hI1) (hspk1.trans hI1)
        (hsyn2.trans hI2) (hmem2.trans hI2) (hspk2.trans hI2)
    refine ⟨s2'.spk :: spks, s2'.mem :: mems, ?_, by simp [hls],
      by simp [hlm], ?_, ?_⟩
    · simp [netLoop, hstep1, hstep2, hrec, Bind.bind, Except.bind]
    · intro t ht
      rcases List.mem_cons.mp ht with rfl | ht
      · exact hspk2.trans hI2
      · exact hfs t ht
    · intro t ht
      rcases List.mem_cons.mp ht with rfl | ht
      · exact hmem2.trans hI2
      · exact hfm t ht

/-- C4: when the input batch dimension matches the configured batch
size, `Net.forward` returns spike and membrane histories each of length
exactly `numSteps`, every step shaped `(batchSize, W2.length)` — the
final layer's shape. -/
theorem net_forward_history (p1 p2 : SteinParams) (W1 : Tensor)
    (b1 : List ℚ) (W2 : Tensor) (b2 : List ℚ)
    (batchSize numSteps : ℕ) (x : Tensor) (hx : x.length = batchSize)
    (hb1 : b1.length = W1.length) (hb2 : b2.length = W2.length) :
    ∃ spks mems,
      netForward p1 p2 W1 b1 W2 b2 batchSize numSteps x = .ok (spks, mems) ∧
      spks.length = numSteps ∧ mems.length = numSteps ∧
      (∀ t ∈ spks, tshape t = List.replicate batchSize W2.length) ∧
      (∀ t ∈ mems, tshape t = List.replicate batchSize W2.length) := by
  subst hx
  exact netLoop_shapes p1 p2 W1 b1 W2 b2 x hb1 hb2 numSteps
    (initStein x.length W1.length) (initStein x.length W2.length)
    (tshape_zeros _ _) (tshape_zeros _ _) (tshape_zeros _ _)
    (tshape_zeros _ _) (tshape_zeros _ _) (tshape_zeros _ _)

/-- C4 witness: a batch-2 input through a 1→1→1 network for 3 steps. -/
theorem net_forward_history_witness :
    ∃ spks mems,
      netForward ⟨1/2, 1/2, 1, 50⟩ ⟨1/2, 1/2, 1, 50⟩ [[1]] [0] [[2]] [0]
        2 3 [[1], [2]] = .ok (spks, mems) ∧
      spks.length = 3 ∧ mems.length = 3 ∧
      (∀ t ∈ spks, tshape t = List.replicate 2 1) ∧
      (∀ t ∈ mems, tshape t = List.replicate 2 1) :=
  net_forward_history ⟨1/2, 1/2, 1, 50⟩ ⟨1/2, 1/2, 1, 50⟩ [[1]] [0] [[2]] [0]
    2 3 [[1], [2]] rfl rfl rfl

/-- C10: `Net.forward` seeds the layer states with the globally
configured `batchSize`, not the batch dimension of `x`: the state fed to
the first step has batch dimension `batchSize` while the input current
has batch dimension `x.length`, and whenever these differ the forward
pass fails with `ShapeError` instead of satisfying its shape contract. -/
theorem net_forward_batch_size_precondition (p1 p2 : SteinParams)
    (W1 : Tensor) (b1 : List ℚ) (W2 : Tensor) (b2 : List ℚ)
    (batchSize numSteps : ℕ) (x : Tensor)
    (hb1 : b1.length = W1.length) (hn : 0 < numSteps)
    (hx : x.length ≠ batchSize) :
    netForward p1 p2 W1 b1 W2 b2 batchSize numSteps x = .error .ShapeError ∧
    tshape (initStein batchSize W1.length).syn =
      List.replicate batchSize W1.length ∧
    tshape (linearT W1 b1 x) = List.replicate x.length W1.length := by
  have hI : tshape (linearT W1 b1 x) = List.replicate x.length W1.length :=
    tshape_linearT W1 b1 x hb1
  have hz : tshape (initStein batchSize W1.length).syn =
      List.replicate batchSize W1.length := tshape_zeros _ _
  refine ⟨?_, hz, hI⟩
  obtain ⟨n, rfl⟩ := Nat.exists_eq_succ_of_ne_zero hn.ne'
  have hne : tshape (linearT W1 b1 x) ≠
      tshape (initStein batchSize W1.length).syn := by
    rw [hI, hz]
    intro h
    exact hx (by simpa using congrArg List.length h)
  have herr := steinStepT_err p1 (linearT W1 b1 x)
    (initStein batchSize W1.length) hne
  simp [netForward, netLoop, herr, Bind.bind, Except.bind]

/-- C10 witness: a batch-1 input with configured batch size 2. -/
theorem net_forward_batch_size_precondition_witness :
    netForward ⟨1/2, 1/2, 1, 50⟩ ⟨1/2, 1/2, 1, 50⟩ [[1]] [0] [[2]] [0]
      2 1 [[1]] = .error .ShapeError :=
  (net_forward_batch_size_precondition ⟨1/2, 1/2, 1, 50⟩ ⟨1/2, 1/2, 1, 50⟩
    [[1]] [0] [[2]] [0] 2 1 [[1]] rfl (by norm_num) (by norm_num)).1

/-- C9: with `gain = 1` and `offset = 0`, the rate encoder returns a
spike train of `numSteps` slices each shaped like the sample; on an
all-ones sample every element of every step is `1`, on an all-zeros
sample every element is `0`, for every random source with values in
`[0,1)` — hence independent of the seed. -/
theorem rate_encode_extremes (numSteps : ℕ) (sample : Tensor)
    (u : ℕ → ℕ → ℕ → ℚ) (hu : ∀ t i j, 0 ≤ u t i j ∧ u t i j < 1) :
    (rateEncode numSteps 1 0 sample u).length = numSteps ∧
    (∀ st ∈ rateEncode numSteps 1 0 sample u, tshape st = tshape sample) ∧
    ((∀ row ∈ sample, ∀ v ∈ row, v = 1) →
      ∀ st ∈ rateEncode numSteps 1 0 sample u, ∀ row ∈ st, ∀ v ∈ row, v = 1) ∧
    ((∀ row ∈ sample, ∀ v ∈ row, v = 0) →
      ∀ st ∈ rateEncode numSteps 1 0 sample u, ∀ row ∈ st, ∀ v ∈ row, v = 0) := by
  refine ⟨by simp [rateEncode], ?_, ?_, ?_⟩
  · intro st hst
    obtain ⟨t, -, rfl⟩ := List.mem_map.mp hst
    rw [tshape, List.map_map]
    have h1 : (List.length ∘ fun ir : ℕ × List ℚ =>
        ir.2.enum.map fun jx =>
          bernoulli (clip01 (1 * jx.2 + 0)) (u t ir.1 jx.1)) =
        fun ir : ℕ × List ℚ => ir.2.length := by
      funext ir
      simp [List.length_map, List.enum_length]
    rw [h1]
    exact enum_map_snd_comp sample List.length
  · intro hall st hst row hrow v hv
    obtain ⟨t, -, rfl⟩ := List.mem_map.mp hst
    obtain ⟨ir, hir, rfl⟩ := List.mem_map.mp hrow
    obtain ⟨jx, hjx, rfl⟩ := List.mem_map.mp hv
    have hone : jx.2 = 1 :=
      hall ir.2 (snd_mem_of_mem_enum hir) jx.2 (snd_mem_of_mem_enum hjx)
    rw [hone]
    norm_num [bernoulli, clip01, (hu t ir.1 jx.1).2]
  · intro hall st hst row hrow v hv
    obtain ⟨t, -, rfl⟩ := List.mem_map.mp hst
    obtain ⟨ir, hir, rfl⟩ := List.mem_map.mp hrow
    obtain ⟨jx, hjx, rfl⟩ := List.mem_map.mp hv
    have hzero : jx.2 = 0 :=
      hall ir.2 (snd_mem_of_mem_enum hir) jx.2 (snd_mem_of_mem_enum hjx)
    rw [hzero]
    norm_num [bernoulli, clip01, not_lt.mpr (hu t ir.1 jx.1).1]

/-- C9 witness: two steps on a one-pixel all-ones sample with a
constant random source. -/
theorem rate_encode_extremes_witness :
    (rateEncode 2 1 0 [[1]] (fun _ _ _ => 1/2)).length = 2 :=
  (rate_encode_extremes 2 [[1]] (fun _ _ _ => 1/2)
    (fun _ _ _ => by norm_num)).1

end Snn
